import Mathlib

/-!
Minimum number of platforms: `Solution::minPlatform`, `src/External/q2-GFG.cpp`.

A shallow embedding of the two-pointer sweep of `minPlatform` and the properties
of it that the specification states.

Modelling conventions.

* `vector<int>` is a `List Int`.  The elements are only compared, never added, so
  an `Int` stands for an `int` exactly.
* `int n = arr.size()` narrows the size of the vector to a 32-bit `int`: `toInt`
  is that conversion, so `n` is the size itself only below `2^31` and is negative for
  `2^31` elements.  `n` is the one value of the function that can wrap: `i` and `j`
  are only incremented below `n`, and `platform` stays in `[1 - n, n]`, so the
  counters are kept exact (`Nat` for the cursors, `Int` for the counts);
  `steps_fit_int` proves that they stay within the range of an `int`.
* `arr` and `dep` are reference parameters and `std::sort` sorts them in place, so
  the embedding returns the two vectors as the call leaves them next to the
  returned `int`.
* `arr[i]`, `dep[j]` are checked reads (`List.getElem?`): a read past the end of a
  vector is undefined behaviour in the source and `none` here.
-/

namespace MinPlatform

/-! ## The program -/

/-- `std::sort(v.begin(), v.end())` on a `vector<int>`: the ascending rearrangement
of the vector (for integers it is unique, whichever algorithm produces it). -/
def sort (v : List Int) : List Int :=
  v.insertionSort (fun a b => a ≤ b)

/-- The conversion of `int n = arr.size()`: the size, an unsigned value, narrowed to
a 32-bit `int`.  The low 32 bits `k % 2^32` are read in two's complement: as they
are below `2^31`, less `2^32` from `2^31` on. -/
def toInt (k : Nat) : Int :=
  if k % 2 ^ 32 < 2 ^ 31 then ((k % 2 ^ 32 : Nat) : Int)
  else ((k % 2 ^ 32 : Nat) : Int) - 2 ^ 32

/-- The local variables of the sweep loop of `minPlatform`. -/
structure Sweep where
  i : Nat
  j : Nat
  platform : Int
  maxPlatform : Int
  deriving DecidableEq, Repr

/-- State on entry of the loop: `platform = 1; maxPlatform = 1; i = 1; j = 0`. -/
def Sweep.init : Sweep :=
  { i := 1, j := 0, platform := 1, maxPlatform := 1 }

/-- The loop condition `i < n && j < n`. -/
def cond (n : Int) (s : Sweep) : Prop :=
  (s.i : Int) < n ∧ (s.j : Int) < n

instance (n : Int) (s : Sweep) : Decidable (cond n s) := by
  unfold cond; infer_instance

/-- The body of the loop:
`if (arr[i] <= dep[j]) { platform++; i++; } else { platform--; j++; }`
followed by `maxPlatform = max(maxPlatform, platform)`.
`none` when one of the two reads is past the end of its vector. -/
def body (arr dep : List Int) (s : Sweep) : Option Sweep :=
  match arr[s.i]?, dep[s.j]? with
  | some a, some d =>
    let s1 : Sweep :=
      if a ≤ d then { s with platform := s.platform + 1, i := s.i + 1 }
      else { s with platform := s.platform - 1, j := s.j + 1 }
    some { s1 with maxPlatform := max s1.maxPlatform s1.platform }
  | _, _ => none

set_option linter.unusedVariables false in
/-- The loop `while (i < n && j < n) { ... }`, run from the state `s` to its exit:
the state at exit, or `none` when an iteration reads past the end of a vector.
The recursion is well founded: an iteration advances one cursor, so
`(n - i) + (n - j)` decreases. -/
def loop (arr dep : List Int) (n : Int) (s : Sweep) : Option Sweep :=
  if cond n s then
    match h : body arr dep s with
    | some s' => loop arr dep n s'
    | none => none
  else some s
termination_by (n - s.i).toNat + (n - s.j).toNat
decreasing_by
  rename_i hc
  have hc2 : (s.i : Int) < n ∧ (s.j : Int) < n := hc
  unfold body at h
  split at h
  · cases h
    simp only
    split <;> simp only <;> omega
  · cases h

/-- What a call of `minPlatform` leaves behind: the returned value and the two
argument vectors as the caller finds them afterwards. -/
structure Outcome where
  result : Int
  arr : List Int
  dep : List Int
  deriving DecidableEq, Repr

/-- The function `Solution::minPlatform(vector<int>& arr, vector<int>& dep)`. -/
def minPlatform (arr dep : List Int) : Option Outcome :=
  let n := toInt arr.length
  let arr := sort arr
  let dep := sort dep
  match loop arr dep n Sweep.init with
  | some s => some { result := s.maxPlatform, arr := arr, dep := dep }
  | none => none

/-- The states of the sweep loop: `Steps arr dep n k s` says that the loop, entered
in `Sweep.init`, is in state `s` after `k` iterations, each entered under the loop
condition and with both reads within bounds. -/
inductive Steps (arr dep : List Int) (n : Int) : Nat → Sweep → Prop
  | init : Steps arr dep n 0 Sweep.init
  | step {k : Nat} {s s' : Sweep} : Steps arr dep n k s → cond n s →
      body arr dep s = some s' → Steps arr dep n (k + 1) s'

/-! ## The notions of the specification -/

/-- The instants an event occupies: the closed interval `[arrival, departure]`. -/
def occupies (e : Int × Int) (t : Int) : Prop :=
  e.1 ≤ t ∧ t ≤ e.2

instance (e : Int × Int) (t : Int) : Decidable (occupies e t) := by
  unfold occupies; infer_instance

/-- The events of an input: event `k` is the pair `(arrivals[k], departures[k])`. -/
def events (arr dep : List Int) : List (Int × Int) :=
  arr.zip dep

/-- The number of indices `k` with `arrivals[k] ≤ t ≤ departures[k]`. -/
def active (arr dep : List Int) (t : Int) : Nat :=
  (events arr dep).countP (fun e => decide (occupies e t))

/-- Every event departs no earlier than it arrives: `arrivals[k] ≤ departures[k]`. -/
def Valid (arr dep : List Int) : Prop :=
  ∀ e ∈ events arr dep, e.1 ≤ e.2

instance (arr dep : List Int) : Decidable (Valid arr dep) := by
  unfold Valid; infer_instance

/-- Two events overlap when their closed intervals share an instant. -/
def overlap (e f : Int × Int) : Prop :=
  ∃ t, occupies e t ∧ occupies f t

/-- The events can be assigned to `q` platforms so that no two distinct events on
one platform overlap. -/
def Assignable (arr dep : List Int) (q : Nat) : Prop :=
  ∃ c : Fin (events arr dep).length → Fin q,
    ∀ k m, k ≠ m → overlap ((events arr dep).get k) ((events arr dep).get m) → c k ≠ c m

/-- The events are pairwise disjoint: of two distinct events one departs before
the other arrives. -/
def NoOverlap (arr dep : List Int) : Prop :=
  ∀ k m : Fin (events arr dep).length, k ≠ m →
    ((events arr dep).get k).2 < ((events arr dep).get m).1 ∨
    ((events arr dep).get m).2 < ((events arr dep).get k).1

instance (arr dep : List Int) : Decidable (NoOverlap arr dep) := by
  unfold NoOverlap; infer_instance

/-! ## Invariants of the loop -/

/-- Invariant of the sweep with the bound `n`: the cursors stay at most `n`, or stay
`1` and `0` where `n` is too small for them to have moved; the running count is
`i - j`; and the maximum is at least `1`, at least the running count and at most `i`. -/
def Basic (n : Int) (s : Sweep) : Prop :=
  1 ≤ s.i ∧ ((s.i : Int) ≤ n ∨ s.i = 1) ∧ ((s.j : Int) ≤ n ∨ s.j = 0) ∧
    s.platform = (s.i : Int) - s.j ∧
    s.platform ≤ s.maxPlatform ∧ 1 ≤ s.maxPlatform ∧ s.maxPlatform ≤ s.i

/-- The number of elements of `v` that are at most `t`. -/
def countLE (v : List Int) (t : Int) : Nat :=
  v.countP (fun a => decide (a ≤ t))

/-- The number of elements of `v` that are less than `t`. -/
def countLT (v : List Int) (t : Int) : Nat :=
  v.countP (fun a => decide (a < t))

/-- Invariant of the sweep on the sorted vectors `A`, `D`: the departures passed
so far lie before the next arrival; every arrival passed so far was counted against
at most the departures before it; and the maximum is reached at some instant. -/
def Swept (A D : List Int) (s : Sweep) : Prop :=
  (∀ hi : s.i < A.length, s.j ≤ countLT D A[s.i]) ∧
  (∀ k (hk : k < A.length), k < s.i →
    ((k : Int) + 1) - countLT D A[k] ≤ s.maxPlatform) ∧
  (∃ t, s.maxPlatform ≤ (countLE A t : Int) - countLT D t)

/-- The events under way at `t`, as a set of indices. -/
def underWay (es : List (Int × Int)) (t : Int) : Finset (Fin es.length) :=
  Finset.univ.filter (fun k => occupies (es.get k) t)

/-! ## The loop, one iteration at a time -/

/-- Every iteration advances exactly one of the two cursors by one. -/
theorem body_cursors {arr dep : List Int} {s s' : Sweep} (h : body arr dep s = some s') :
    (s'.i = s.i + 1 ∧ s'.j = s.j) ∨ (s'.i = s.i ∧ s'.j = s.j + 1) := by
  unfold body at h
  split at h
  · cases h
    simp only
    split
    · exact Or.inl ⟨rfl, rfl⟩
    · exact Or.inr ⟨rfl, rfl⟩
  · cases h

/-- One unfolding of the loop: test the condition, run the body, go round again. -/
theorem loop_eq (arr dep : List Int) (n : Int) (s : Sweep) :
    loop arr dep n s
      = if cond n s then (body arr dep s).bind (loop arr dep n) else some s := by
  rw [loop]
  split
  · split <;> simp_all
  · rfl

/-! ## The sort -/

theorem sort_perm (v : List Int) : (sort v).Perm v :=
  List.perm_insertionSort _ v

theorem sort_sorted (v : List Int) : (sort v).Sorted (fun a b => a ≤ b) :=
  List.sorted_insertionSort _ v

theorem sort_length (v : List Int) : (sort v).length = v.length :=
  (sort_perm v).length_eq

theorem sort_eq_of_perm {v w : List Int} (h : v.Perm w) : sort v = sort w :=
  List.eq_of_perm_of_sorted (((sort_perm v).trans h).trans (sort_perm w).symm)
    (sort_sorted v) (sort_sorted w)

theorem sort_eq_self {v : List Int} (h : v.Sorted (fun a b => a ≤ b)) : sort v = v :=
  List.Sorted.insertionSort_eq h

theorem sort_sort (v : List Int) : sort (sort v) = sort v :=
  sort_eq_self (sort_sorted v)

/-! ## The size as an `int` -/

theorem toInt_le (k : Nat) : toInt k ≤ k := by
  unfold toInt; split <;> omega

/-- Below `2^31` the conversion keeps the size. -/
theorem toInt_of_lt {k : Nat} (h : k < 2 ^ 31) : toInt k = k := by
  unfold toInt; split <;> omega

/-- The conversion gives a value an `int` holds. -/
theorem toInt_range (k : Nat) : -2 ^ 31 ≤ toInt k ∧ toInt k < 2 ^ 31 := by
  unfold toInt; split <;> omega

/-- From `2^31` to below `2^32` the conversion gives a negative `int`. -/
theorem toInt_neg {k : Nat} (h1 : 2 ^ 31 ≤ k) (h2 : k < 2 ^ 32) : toInt k < 0 := by
  unfold toInt; split <;> omega

/-! ## The rule of the loop -/

/-- The rule of the `while` loop: an invariant that every iteration keeps, and
under which the reads of an iteration are within bounds, holds at the exit of
the loop, which is reached, with the loop condition false. -/
theorem loop_rule (P : Sweep → Prop) (arr dep : List Int) (n : Int)
    (hbody : ∀ s, P s → cond n s → ∃ s', body arr dep s = some s' ∧ P s') :
    ∀ s, P s → ∃ s', loop arr dep n s = some s' ∧ P s' ∧ ¬ cond n s' := by
  suffices h : ∀ m s, (n - s.i).toNat + (n - s.j).toNat = m → P s →
      ∃ s', loop arr dep n s = some s' ∧ P s' ∧ ¬ cond n s' from
    fun s hP => h _ s rfl hP
  intro m
  induction m using Nat.strong_induction_on with
  | _ m ih =>
    intro s hm hP
    rw [loop_eq]
    by_cases hc : cond n s
    · obtain ⟨s', hb, hP'⟩ := hbody s hP hc
      have hc2 : (s.i : Int) < n ∧ (s.j : Int) < n := hc
      have hlt : (n - s'.i).toNat + (n - s'.j).toNat < m := by
        rcases body_cursors hb with ⟨h1, h2⟩ | ⟨h1, h2⟩ <;> omega
      simpa [hc, hb] using ih _ hlt s' rfl hP'
    · exact ⟨s, by simp [hc], hP, hc⟩

/-- The value and the vectors a call leaves, from the exit state of its loop. -/
theorem minPlatform_of_loop {arr dep : List Int} {s : Sweep}
    (h : loop (sort arr) (sort dep) (toInt arr.length) Sweep.init = some s) :
    minPlatform arr dep
      = some { result := s.maxPlatform, arr := sort arr, dep := sort dep } := by
  simp [minPlatform, h]

/-- What one iteration does when both reads are within bounds. -/
theorem body_eq {arr dep : List Int} {s : Sweep} (hi : s.i < arr.length)
    (hj : s.j < dep.length) :
    body arr dep s
      = if arr[s.i] ≤ dep[s.j] then
          some { i := s.i + 1, j := s.j, platform := s.platform + 1,
                 maxPlatform := max s.maxPlatform (s.platform + 1) }
        else
          some { i := s.i, j := s.j + 1, platform := s.platform - 1,
                 maxPlatform := max s.maxPlatform (s.platform - 1) } := by
  simp only [body, List.getElem?_eq_getElem hi, List.getElem?_eq_getElem hj]
  split <;> rfl

/-- With vectors of one length and a bound `n` that does not exceed it, an iteration
entered under the loop condition reads within bounds. -/
theorem body_eq_sorted {arr dep : List Int} (hlen : arr.length = dep.length) {n : Int}
    (hn : n ≤ arr.length) {s : Sweep} (hc : cond n s) :
    ∃ (hi : s.i < (sort arr).length) (hj : s.j < (sort dep).length),
      body (sort arr) (sort dep) s
        = if (sort arr)[s.i] ≤ (sort dep)[s.j] then
            some { i := s.i + 1, j := s.j, platform := s.platform + 1,
                   maxPlatform := max s.maxPlatform (s.platform + 1) }
          else
            some { i := s.i, j := s.j + 1, platform := s.platform - 1,
                   maxPlatform := max s.maxPlatform (s.platform - 1) } := by
  have hc2 : (s.i : Int) < n ∧ (s.j : Int) < n := hc
  have hi : s.i < (sort arr).length := by rw [sort_length]; omega
  have hj : s.j < (sort dep).length := by rw [sort_length, ← hlen]; omega
  exact ⟨hi, hj, body_eq hi hj⟩

theorem basic_init (n : Int) : Basic n Sweep.init := by
  simp [Basic, Sweep.init]

theorem basic_body {arr dep : List Int} (hlen : arr.length = dep.length) {n : Int}
    (hn : n ≤ arr.length) {s : Sweep} (hP : Basic n s) (hc : cond n s) :
    ∃ s', body (sort arr) (sort dep) s = some s' ∧ Basic n s' := by
  obtain ⟨hi, hj, hb⟩ := body_eq_sorted hlen hn hc
  obtain ⟨h1, h2, h3, h4, h5, h6, h7⟩ := hP
  have hc2 : (s.i : Int) < n ∧ (s.j : Int) < n := hc
  rw [hb]
  split
  · refine ⟨_, rfl, ?_⟩
    simp only [Basic, Nat.cast_add, Nat.cast_one]
    refine ⟨by omega, by omega, by omega, by omega, le_max_right _ _,
      le_max_of_le_left h6, max_le (by omega) (by omega)⟩
  · refine ⟨_, rfl, ?_⟩
    simp only [Basic, Nat.cast_add, Nat.cast_one]
    refine ⟨by omega, by omega, by omega, by omega, le_max_right _ _,
      le_max_of_le_left h6, max_le (by omega) (by omega)⟩

/-- On vectors of one length the call returns: no read is out of bounds, the loop
exits in a state that satisfies the basic invariant, and the vectors are left sorted. -/
theorem minPlatform_basic {arr dep : List Int} (hlen : arr.length = dep.length) :
    ∃ s, loop (sort arr) (sort dep) (toInt arr.length) Sweep.init = some s ∧
      Basic (toInt arr.length) s ∧ ¬ cond (toInt arr.length) s ∧
      minPlatform arr dep
        = some { result := s.maxPlatform, arr := sort arr, dep := sort dep } := by
  obtain ⟨s, hs, hP, hc⟩ := loop_rule (Basic (toInt arr.length)) (sort arr) (sort dep)
    (toInt arr.length) (fun s hP hc => basic_body hlen (toInt_le _) hP hc) Sweep.init
    (basic_init _)
  exact ⟨s, hs, hP, hc, minPlatform_of_loop hs⟩

/-! ## Counting in sorted vectors -/

/-- In an ascending vector the elements with a downward closed property are an
initial segment: position `i` has the property exactly when `i` is below their number. -/
theorem sorted_getElem_iff {l : List Int} (hs : l.Sorted (fun a b => a ≤ b)) (p : Int → Bool)
    (hp : ∀ x y, x ≤ y → p y = true → p x = true) (i : Nat) (hi : i < l.length) :
    p l[i] = true ↔ i < l.countP p := by
  induction l generalizing i with
  | nil => simp at hi
  | cons x xs ih =>
    obtain ⟨hx, hxs⟩ := List.sorted_cons.1 hs
    by_cases hpx : p x = true
    · cases i with
      | zero => simp [List.countP_cons, hpx]
      | succ i =>
        have := ih hxs i (by simpa using hi)
        simp [List.countP_cons, hpx, this]
    · have hnone : ∀ b ∈ xs, ¬ p b = true := fun b hb hpb => hpx (hp x b (hx b hb) hpb)
      have h0 : xs.countP p = 0 := List.countP_eq_zero.2 hnone
      cases i with
      | zero => simp [List.countP_cons, hpx, h0]
      | succ i =>
        have hi' : i < xs.length := by simpa using hi
        have hmem : xs[i] ∈ xs := List.getElem_mem hi'
        simpa [List.countP_cons, hpx, h0] using hnone _ hmem

theorem sorted_le_iff {l : List Int} (hs : l.Sorted (fun a b => a ≤ b)) (t : Int) (i : Nat)
    (hi : i < l.length) : l[i] ≤ t ↔ i < countLE l t := by
  have := sorted_getElem_iff hs (fun a => decide (a ≤ t))
    (fun x y hxy hy => by simp at hy ⊢; omega) i hi
  simpa [countLE] using this

theorem sorted_lt_iff {l : List Int} (hs : l.Sorted (fun a b => a ≤ b)) (t : Int) (i : Nat)
    (hi : i < l.length) : l[i] < t ↔ i < countLT l t := by
  have := sorted_getElem_iff hs (fun a => decide (a < t))
    (fun x y hxy hy => by simp at hy ⊢; omega) i hi
  simpa [countLT] using this

theorem countLT_mono (v : List Int) {t u : Int} (h : t ≤ u) : countLT v t ≤ countLT v u :=
  List.countP_mono_left (fun a _ ha => by simp at ha ⊢; omega)

theorem countLE_sort (v : List Int) (t : Int) : countLE (sort v) t = countLE v t :=
  (sort_perm v).countP_eq _

theorem countLT_sort (v : List Int) (t : Int) : countLT (sort v) t = countLT v t :=
  (sort_perm v).countP_eq _

/-- With `arrivals[k] ≤ departures[k]` throughout, the events under way at `t` are
those that have arrived by `t` less those that departed before `t`. -/
theorem active_add_countLT {arr dep : List Int} (hlen : arr.length = dep.length)
    (hv : Valid arr dep) (t : Int) :
    active arr dep t + countLT dep t = countLE arr t := by
  induction arr generalizing dep with
  | nil =>
    cases dep with
    | nil => simp [active, events, countLT, countLE]
    | cons d ds => simp at hlen
  | cons a as ih =>
    cases dep with
    | nil => simp at hlen
    | cons d ds =>
      have had : a ≤ d := hv (a, d) (by simp [events])
      have hv' : Valid as ds := fun e he => hv e (by
        simp only [events, List.zip_cons_cons, List.mem_cons] at he ⊢
        exact Or.inr he)
      have := ih (by simpa using hlen) hv'
      simp only [active, events, countLT, countLE, List.zip_cons_cons, List.countP_cons,
        occupies, Bool.decide_and] at this ⊢
      by_cases h1 : a ≤ t <;> by_cases h2 : t ≤ d <;> by_cases h3 : d < t <;>
        simp [h1, h2, h3] <;> omega

/-- With `arrivals[k] ≤ departures[k]` throughout, no more departures than
arrivals lie before an instant. -/
theorem countLT_dep_le {arr dep : List Int} (hlen : arr.length = dep.length)
    (hv : Valid arr dep) (t : Int) : countLT dep t ≤ countLT arr t := by
  induction arr generalizing dep with
  | nil =>
    cases dep with
    | nil => simp [countLT]
    | cons d ds => simp at hlen
  | cons a as ih =>
    cases dep with
    | nil => simp at hlen
    | cons d ds =>
      have had : a ≤ d := hv (a, d) (by simp [events])
      have hv' : Valid as ds := fun e he => hv e (by
        simp only [events, List.zip_cons_cons, List.mem_cons] at he ⊢
        exact Or.inr he)
      have := ih (by simpa using hlen) hv'
      simp only [countLT, List.countP_cons] at this ⊢
      by_cases h1 : a < t <;> by_cases h3 : d < t <;> simp [h1, h3] <;> omega

theorem sorted_getElem_le {l : List Int} (hs : l.Sorted (fun a b => a ≤ b)) {i k : Nat}
    (hik : i ≤ k) (hk : k < l.length) : l[i] ≤ l[k] := by
  have h : k < countLE l l[k] := (sorted_le_iff hs l[k] k hk).1 le_rfl
  exact (sorted_le_iff hs l[k] i (by omega)).2 (by omega)

/-! ## The sweep counts the events under way -/

theorem swept_body {arr dep : List Int} (hlen : arr.length = dep.length) {n : Int}
    (hn : n ≤ arr.length) {s : Sweep}
    (hB : Basic n s) (hS : Swept (sort arr) (sort dep) s) (hc : cond n s) :
    ∃ s', body (sort arr) (sort dep) s = some s' ∧ Basic n s' ∧
      Swept (sort arr) (sort dep) s' := by
  obtain ⟨hi, hj, hb⟩ := body_eq_sorted hlen hn hc
  obtain ⟨s', hb0, hB'⟩ := basic_body hlen hn hB hc
  refine ⟨s', hb0, hB', ?_⟩
  obtain ⟨hJ, hK, t, hU⟩ := hS
  obtain ⟨-, -, -, h4, h5, -, -⟩ := hB
  have hA := sort_sorted arr
  have hD := sort_sorted dep
  rw [hb] at hb0
  by_cases hle : (sort arr)[s.i] ≤ (sort dep)[s.j]
  · rw [if_pos hle] at hb0
    cases hb0
    have hJi := hJ hi
    refine ⟨fun hi' => ?_, fun k hk hlt => ?_, ?_⟩
    · exact le_trans hJi (countLT_mono _ (sorted_getElem_le hA (Nat.le_succ _) hi'))
    · rcases Nat.lt_succ_iff_lt_or_eq.1 hlt with h | h
      · exact le_trans (hK k hk h) (le_max_left _ _)
      · subst h
        refine le_trans ?_ (le_max_right _ _)
        omega
    · by_cases hm : s.platform + 1 ≤ s.maxPlatform
      · exact ⟨t, by simpa [max_eq_left hm] using hU⟩
      · refine ⟨(sort arr)[s.i], ?_⟩
        have h1 : s.i < countLE (sort arr) (sort arr)[s.i] :=
          (sorted_le_iff hA _ _ hi).1 le_rfl
        have h2 : ¬ s.j < countLT (sort dep) (sort arr)[s.i] := fun h =>
          absurd ((sorted_lt_iff hD _ _ hj).2 h) (by omega)
        simp only [max_eq_right (le_of_not_le hm)]
        omega
  · rw [if_neg hle] at hb0
    cases hb0
    have hlt : (sort dep)[s.j] < (sort arr)[s.i] := by omega
    refine ⟨fun _ => ?_, fun k hk hlt => ?_, t, ?_⟩
    · exact (sorted_lt_iff hD _ _ hj).1 hlt
    · exact le_trans (hK k hk hlt) (le_max_left _ _)
    · have : max s.maxPlatform (s.platform - 1) = s.maxPlatform :=
        max_eq_left (by omega)
      simpa [this] using hU

theorem swept_init {arr dep : List Int} (hlen : arr.length = dep.length)
    (hN : 1 ≤ arr.length) (hv : Valid arr dep) :
    Swept (sort arr) (sort dep) Sweep.init := by
  have hA := sort_sorted arr
  have h0 : 0 < (sort arr).length := by rw [sort_length]; exact hN
  have h1 : 0 < countLE (sort arr) (sort arr)[0] := (sorted_le_iff hA _ _ h0).1 le_rfl
  have h2 : ¬ 0 < countLT (sort arr) (sort arr)[0] := fun h =>
    absurd ((sorted_lt_iff hA _ _ h0).2 h) (lt_irrefl _)
  have h3 := countLT_dep_le hlen hv (sort arr)[0]
  rw [← countLT_sort arr, ← countLT_sort dep] at h3
  refine ⟨fun _ => Nat.zero_le _, fun k hk hlt => ?_, (sort arr)[0], ?_⟩
  · have hk0 : k = 0 := by simpa [Sweep.init] using hlt
    subst hk0
    simp only [Sweep.init]
    omega
  · simp only [Sweep.init]
    omega

/-- With `arrivals[k] ≤ departures[k]` throughout, the events under way at `t` are
counted by the two sorted vectors. -/
theorem active_eq_counts {arr dep : List Int} (hlen : arr.length = dep.length)
    (hv : Valid arr dep) (t : Int) :
    (active arr dep t : Int) = (countLE (sort arr) t : Int) - countLT (sort dep) t := by
  have := active_add_countLT hlen hv t
  rw [countLE_sort, countLT_sort]
  omega

/-- The sweep on `N ≥ 1` events that depart no earlier than they arrive, whatever
`int` the size was narrowed to: the loop reaches its exit, in a state that satisfies
both invariants. -/
theorem sweep_exit {arr dep : List Int} (hlen : arr.length = dep.length)
    (hN : 1 ≤ arr.length) (hv : Valid arr dep) :
    ∃ s, loop (sort arr) (sort dep) (toInt arr.length) Sweep.init = some s ∧
      Basic (toInt arr.length) s ∧ Swept (sort arr) (sort dep) s ∧
      ¬ cond (toInt arr.length) s := by
  obtain ⟨s, hs, ⟨hB, hS⟩, hc⟩ := loop_rule
    (fun s => Basic (toInt arr.length) s ∧ Swept (sort arr) (sort dep) s)
    (sort arr) (sort dep) (toInt arr.length)
    (fun s hP hc => swept_body hlen (toInt_le _) hP.1 hP.2 hc)
    Sweep.init ⟨basic_init _, swept_init hlen hN hv⟩
  exact ⟨s, hs, hB, hS, hc⟩

/-- The value the sweep ends with is at least `1` and is reached by the number of
events under way at some instant, whatever `int` the size was narrowed to. -/
theorem sweep_le_active {arr dep : List Int} (hlen : arr.length = dep.length)
    (hN : 1 ≤ arr.length) (hv : Valid arr dep) :
    ∃ s, loop (sort arr) (sort dep) (toInt arr.length) Sweep.init = some s ∧
      1 ≤ s.maxPlatform ∧ ∃ t, s.maxPlatform ≤ (active arr dep t : Int) := by
  obtain ⟨s, hs, hB, ⟨-, -, t0, hU⟩, -⟩ := sweep_exit hlen hN hv
  exact ⟨s, hs, hB.2.2.2.2.2.1, t0, by rw [active_eq_counts hlen hv]; exact hU⟩

/-- The sweep on `N ≥ 1` events that depart no earlier than they arrive, `N` below
`2^31`: the loop exits with every arrival passed, and the maximum it holds is the
greatest number of events under way at an instant. -/
theorem sweep_max_active {arr dep : List Int} (hlen : arr.length = dep.length)
    (hN : 1 ≤ arr.length) (hsz : arr.length < 2 ^ 31) (hv : Valid arr dep) :
    ∃ s, loop (sort arr) (sort dep) (toInt arr.length) Sweep.init = some s ∧
      s.i = arr.length ∧ 1 ≤ s.maxPlatform ∧
      (∃ t, (active arr dep t : Int) = s.maxPlatform) ∧
      ∀ t, (active arr dep t : Int) ≤ s.maxPlatform := by
  have hA := sort_sorted arr
  obtain ⟨s, hs, hB, ⟨hJ, hK, t0, hU⟩, hc⟩ := sweep_exit hlen hN hv
  rw [toInt_of_lt hsz] at hB hc
  have hc' : ¬ ((s.i : Int) < arr.length ∧ (s.j : Int) < arr.length) := hc
  obtain ⟨-, h2, h3, -, -, h6, -⟩ := hB
  have hact := active_eq_counts hlen hv
  have hi : s.i = arr.length := by
    by_contra hne
    have hlt : s.i < (sort arr).length := by rw [sort_length]; omega
    have h7 := hJ hlt
    have h8 := countLT_dep_le hlen hv (sort arr)[s.i]
    rw [← countLT_sort arr, ← countLT_sort dep] at h8
    have h9 : ¬ s.i < countLT (sort arr) (sort arr)[s.i] := fun h =>
      absurd ((sorted_lt_iff hA _ _ hlt).2 h) (lt_irrefl _)
    rw [sort_length] at hlt
    omega
  have hub : ∀ t, (active arr dep t : Int) ≤ s.maxPlatform := fun t => by
    rw [hact]
    rcases Nat.eq_zero_or_pos (countLE (sort arr) t) with h0 | hpos
    · rw [h0]; omega
    · have hle : countLE (sort arr) t ≤ (sort arr).length := List.countP_le_length _
      have hk : countLE (sort arr) t - 1 < (sort arr).length := by omega
      have h10 : (sort arr)[countLE (sort arr) t - 1] ≤ t :=
        (sorted_le_iff hA t _ hk).2 (by omega)
      have h11 := countLT_mono (sort dep) h10
      have h12 := hK _ hk (by rw [sort_length] at hle; omega)
      omega
  refine ⟨s, hs, hi, h6, ⟨t0, le_antisymm (hub t0) ?_⟩, hub⟩
  rw [hact]
  exact hU

/-! ## Platforms -/

theorem countP_eq_card_filter_fin {α : Type} (l : List α) (p : α → Bool) :
    l.countP p = (Finset.univ.filter (fun k : Fin l.length => p (l.get k) = true)).card := by
  rw [Finset.card_filter]
  induction l with
  | nil => simp
  | cons x xs ih =>
    rw [List.countP_cons, ih]
    simp only [List.length_cons, Fin.sum_univ_succ]
    simp [add_comm]

theorem card_underWay (arr dep : List Int) (t : Int) :
    (underWay (events arr dep) t).card = active arr dep t := by
  rw [active, countP_eq_card_filter_fin]
  simp [underWay]

/-- Events under way at one instant need a platform each. -/
theorem card_underWay_le {es : List (Int × Int)} {q : Nat} (c : Fin es.length → Fin q)
    (hc : ∀ k m, k ≠ m → overlap (es.get k) (es.get m) → c k ≠ c m) (t : Int) :
    (underWay es t).card ≤ q := by
  have hinj : Set.InjOn c (underWay es t : Set (Fin es.length)) := by
    intro k hk m hm hkm
    by_contra hne
    have hk' : occupies (es.get k) t := by simpa [underWay] using hk
    have hm' : occupies (es.get m) t := by simpa [underWay] using hm
    exact hc k m hne ⟨t, hk', hm'⟩ hkm
  have := Finset.card_le_card_of_injOn c (fun k _ => Finset.mem_univ (c k)) hinj
  simpa using this

/-- Greedy assignment in the order of arrival: when no instant has more than `r`
events under way, `r` platforms are enough. -/
theorem exists_assignment {es : List (Int × Int)} (hv : ∀ e ∈ es, e.1 ≤ e.2) {r : Nat}
    (hr : 0 < r) (hmax : ∀ t, (underWay es t).card ≤ r) (S : Finset (Fin es.length)) :
    ∃ c : Fin es.length → Fin r,
      ∀ k ∈ S, ∀ m ∈ S, k ≠ m → overlap (es.get k) (es.get m) → c k ≠ c m := by
  induction S using Finset.induction_on_max_value (fun k : Fin es.length => (es.get k).1) with
  | h0 => exact ⟨fun _ => ⟨0, hr⟩, by simp⟩
  | step a s has hle ih =>
    obtain ⟨c, hc⟩ := ih
    -- the events of `s` that overlap the new event are under way when it arrives
    let nb : Finset (Fin es.length) := s.filter (fun x => occupies (es.get x) (es.get a).1)
    have ha : occupies (es.get a) (es.get a).1 := ⟨le_rfl, hv _ (List.get_mem _ _ _)⟩
    have hsub : insert a nb ⊆ underWay es (es.get a).1 := by
      intro x hx
      rcases Finset.mem_insert.1 hx with rfl | hx
      · simpa [underWay] using ha
      · have := (Finset.mem_filter.1 hx).2
        simpa [underWay] using this
    have hanb : a ∉ nb := fun h => has (Finset.mem_filter.1 h).1
    have hcard : nb.card < r := by
      have h1 := Finset.card_le_card hsub
      rw [Finset.card_insert_of_not_mem hanb] at h1
      have h2 := hmax (es.get a).1
      omega
    have himg : (nb.image c).card < (Finset.univ : Finset (Fin r)).card := by
      have : (nb.image c).card ≤ nb.card := Finset.card_image_le
      simp only [Finset.card_univ, Fintype.card_fin]
      omega
    obtain ⟨col, hcol⟩ : ∃ col, col ∉ nb.image c := by
      by_contra h
      push_neg at h
      have hall : (Finset.univ : Finset (Fin r)) ⊆ nb.image c := fun x _ => h x
      have := Finset.card_le_card hall
      omega
    have hfree : ∀ m ∈ s, overlap (es.get a) (es.get m) → c m ≠ col := by
      intro m hm hov hcm
      obtain ⟨t, h1, h2⟩ := hov
      have hmnb : m ∈ nb := by
        refine Finset.mem_filter.2 ⟨hm, ?_, ?_⟩
        · exact hle m hm
        · exact le_trans h1.1 h2.2
      exact hcol (Finset.mem_image.2 ⟨m, hmnb, hcm⟩)
    refine ⟨Function.update c a col, ?_⟩
    intro k hk m hm hkm hov
    rcases Finset.mem_insert.1 hk with hka | hks
    · subst hka
      have hms : m ∈ s := by
        rcases Finset.mem_insert.1 hm with h | h
        · exact absurd h.symm hkm
        · exact h
      rw [Function.update_same, Function.update_noteq (Ne.symm hkm)]
      exact Ne.symm (hfree m hms hov)
    · rcases Finset.mem_insert.1 hm with hma | hms
      · subst hma
        rw [Function.update_same, Function.update_noteq hkm]
        obtain ⟨t, h1, h2⟩ := hov
        exact hfree k hks ⟨t, h2, h1⟩
      · have hka : k ≠ a := fun h => has (h ▸ hks)
        have hma : m ≠ a := fun h => has (h ▸ hms)
        rw [Function.update_noteq hka, Function.update_noteq hma]
        exact hc k hks m hms hkm hov

/-! ## The states of the loop -/

/-- A property of the entry state that every iteration keeps holds in every state
of the loop. -/
theorem steps_inv {arr dep : List Int} {n : Int} (P : Sweep → Prop) (h0 : P Sweep.init)
    (hstep : ∀ s s', P s → cond n s → body arr dep s = some s' → P s') {k : Nat} {s : Sweep}
    (h : Steps arr dep n k s) : P s := by
  induction h with
  | init => exact h0
  | step _ hc hb ih => exact hstep _ _ ih hc hb

/-- After `k` iterations the two cursors have advanced `k` times between them. -/
theorem steps_count {arr dep : List Int} {n : Int} {k : Nat} {s : Sweep}
    (h : Steps arr dep n k s) : k + 1 = s.i + s.j := by
  induction h with
  | init => rfl
  | step _ _ hb ih => rcases body_cursors hb with ⟨h1, h2⟩ | ⟨h1, h2⟩ <;> omega

/-- A state of the loop is never left with both cursors at `n`: after an iteration
`i + j ≤ 2n - 1`. -/
theorem steps_bound {arr dep : List Int} {n : Int} {k : Nat} {s : Sweep}
    (h : Steps arr dep n k s) : k = 0 ∨ (s.i : Int) + s.j + 1 ≤ 2 * n := by
  cases h with
  | init => exact Or.inl rfl
  | @step k s0 s' _ hc hb =>
    have hc2 : (s0.i : Int) < n ∧ (s0.j : Int) < n := hc
    rcases body_cursors hb with ⟨h1, h2⟩ | ⟨h1, h2⟩ <;> omega

/-- The loop run from a state it passes through ends as the loop run from its entry. -/
theorem steps_loop {arr dep : List Int} {n : Int} {k : Nat} {s : Sweep}
    (h : Steps arr dep n k s) : loop arr dep n s = loop arr dep n Sweep.init := by
  induction h with
  | init => rfl
  | @step k s s' _ hc hb ih =>
    rw [← ih, loop_eq arr dep n s, if_pos hc, hb]
    rfl

/-- On vectors of one length the loop reaches its exit: after some number of
iterations it is in a state where the loop condition is false, and that state is
what `loop` returns. -/
theorem steps_exit {arr dep : List Int} (hlen : arr.length = dep.length) :
    ∃ k s, Steps (sort arr) (sort dep) (toInt arr.length) k s ∧
      ¬ cond (toInt arr.length) s ∧
      loop (sort arr) (sort dep) (toInt arr.length) Sweep.init = some s := by
  obtain ⟨s, hs, ⟨-, k, hk⟩, hc⟩ := loop_rule
    (fun s => Basic (toInt arr.length) s ∧
      ∃ k, Steps (sort arr) (sort dep) (toInt arr.length) k s)
    (sort arr) (sort dep) (toInt arr.length)
    (fun s hP hc => by
      obtain ⟨s', hb, hB⟩ := basic_body hlen (toInt_le _) hP.1 hc
      obtain ⟨k, hk⟩ := hP.2
      exact ⟨s', hb, hB, k + 1, Steps.step hk hc hb⟩)
    Sweep.init ⟨basic_init _, 0, Steps.init⟩
  exact ⟨k, s, hk, hc, hs⟩

/-- No counter of the function wraps: on vectors of one length, in every state of
the loop the two cursors, the running count and the maximum are values an `int`
holds, whatever the size of the vectors. -/
theorem steps_fit_int {arr dep : List Int} (hlen : arr.length = dep.length) {k : Nat}
    {s : Sweep} (hk : Steps (sort arr) (sort dep) (toInt arr.length) k s) :
    (s.i : Int) < 2 ^ 31 ∧ (s.j : Int) < 2 ^ 31 ∧
    -2 ^ 31 < s.platform ∧ s.platform < 2 ^ 31 ∧
    1 ≤ s.maxPlatform ∧ s.maxPlatform < 2 ^ 31 := by
  have hB := steps_inv (Basic (toInt arr.length)) (basic_init _)
    (fun s s' hP hc hb => by
      obtain ⟨s'', hb', hB'⟩ := basic_body hlen (toInt_le _) hP hc
      rw [hb] at hb'
      cases hb'
      exact hB')
    hk
  obtain ⟨h1, h2, h3, h4, h5, h6, h7⟩ := hB
  have hr := toInt_range arr.length
  refine ⟨?_, ?_, ?_, ?_, h6, ?_⟩ <;> omega

/-- With a bound of at most `1` the loop is not entered. -/
theorem loop_skip (arr dep : List Int) {n : Int} (hn : n ≤ 1) :
    loop arr dep n Sweep.init = some Sweep.init := by
  rw [loop_eq, if_neg]
  intro h
  have h1 : ((1 : Nat) : Int) < n := h.1
  omega

/-- On `2^31` to `2^32 - 1` events the size is narrowed to a negative `int`, the loop
is not entered, and the call returns `1`. -/
theorem minPlatform_of_wrap {arr dep : List Int} (h1 : 2 ^ 31 ≤ arr.length)
    (h2 : arr.length < 2 ^ 32) :
    minPlatform arr dep = some { result := 1, arr := sort arr, dep := sort dep } := by
  have hn := toInt_neg h1 h2
  exact minPlatform_of_loop (loop_skip _ _ (by omega))

/-- With `arrivals[k] ≤ departures[k]` throughout, the cursor of the departures
never passes the cursor of the arrivals. -/
theorem swept_j_le_i {arr dep : List Int} (hlen : arr.length = dep.length)
    (hv : Valid arr dep) {n : Int} (hn : n ≤ arr.length) {s : Sweep} (hB : Basic n s)
    (hS : Swept (sort arr) (sort dep) s) : s.j ≤ s.i := by
  obtain ⟨h1, h2, h3, -, -, -, -⟩ := hB
  by_cases hlt : s.i < (sort arr).length
  · have h7 := hS.1 hlt
    have h8 := countLT_dep_le hlen hv (sort arr)[s.i]
    rw [← countLT_sort arr, ← countLT_sort dep] at h8
    have h9 : ¬ s.i < countLT (sort arr) (sort arr)[s.i] := fun h =>
      absurd ((sorted_lt_iff (sort_sorted arr) _ _ hlt).2 h) (lt_irrefl _)
    omega
  · rw [sort_length] at hlt
    omega

/-- On events with `arrivals[k] ≤ departures[k]`, in every state of the loop the
running count is `i - j`, it is not negative, and `j ≤ i`. -/
theorem steps_running_count {arr dep : List Int} (hlen : arr.length = dep.length)
    (hv : Valid arr dep) {k : Nat} {s : Sweep}
    (hk : Steps (sort arr) (sort dep) (toInt arr.length) k s) :
    s.platform = (s.i : Int) - s.j ∧ 0 ≤ s.platform ∧ s.j ≤ s.i := by
  have hP := steps_inv
    (fun s => Basic (toInt arr.length) s ∧
      (1 ≤ arr.length → Swept (sort arr) (sort dep) s) ∧
      (arr.length = 0 → s = Sweep.init))
    ⟨basic_init _, fun hN => swept_init hlen hN hv, fun _ => rfl⟩
    (fun s s' hP hc hb => by
      have hc2 : (s.i : Int) < toInt arr.length ∧ (s.j : Int) < toInt arr.length := hc
      have hle := toInt_le arr.length
      have hN : 1 ≤ arr.length := by omega
      obtain ⟨s'', hb', hB', hS'⟩ := swept_body hlen hle hP.1 (hP.2.1 hN) hc
      rw [hb] at hb'
      cases hb'
      exact ⟨hB', fun _ => hS', fun h0 => by omega⟩)
    hk
  obtain ⟨hB, hS, h0⟩ := hP
  have hji : s.j ≤ s.i := by
    rcases Nat.eq_zero_or_pos arr.length with hz | hpos
    · rw [h0 hz]; simp [Sweep.init]
    · exact swept_j_le_i hlen hv (toInt_le _) hB (hS hpos)
  have h4 := hB.2.2.2.1
  exact ⟨h4, by omega, hji⟩

/-! ## One more event -/

theorem events_append {arr dep : List Int} (hlen : arr.length = dep.length) (a d : Int) :
    events (arr ++ [a]) (dep ++ [d]) = events arr dep ++ [(a, d)] := by
  simp [events, List.zip_append hlen]

theorem valid_append {arr dep : List Int} (hlen : arr.length = dep.length)
    (hv : Valid arr dep) {a d : Int} (had : a ≤ d) : Valid (arr ++ [a]) (dep ++ [d]) := by
  intro e he
  rw [events_append hlen, List.mem_append] at he
  rcases he with he | he
  · exact hv e he
  · rw [List.mem_singleton] at he
    subst he
    exact had

/-- The extra event adds one to the events under way at the instants it occupies
and nothing elsewhere. -/
theorem active_append {arr dep : List Int} (hlen : arr.length = dep.length) (a d t : Int) :
    active (arr ++ [a]) (dep ++ [d]) t
      = active arr dep t + (if occupies (a, d) t then 1 else 0) := by
  simp [active, events_append hlen, List.countP_append, List.countP_cons]

/-! ## Sizes that do not fit an `int` -/

theorem events_replicate (N : Nat) :
    events (List.replicate N 0) (List.replicate N 0) = List.replicate N (0, 0) := by
  simp only [events, List.zip_replicate, Nat.min_self]

theorem valid_replicate (N : Nat) : Valid (List.replicate N 0) (List.replicate N 0) := by
  intro e he
  rw [events_replicate] at he
  rw [List.eq_of_mem_replicate he]

theorem active_replicate (N : Nat) :
    active (List.replicate N 0) (List.replicate N 0) 0 = N := by
  rw [active, events_replicate, List.countP_replicate]
  exact if_pos (by decide)

/-- On `N` events `[0, 0]`, `2^31 ≤ N < 2^32`, the call returns `1`. -/
theorem minPlatform_replicate {N : Nat} (h1 : 2 ^ 31 ≤ N) (h2 : N < 2 ^ 32) :
    minPlatform (List.replicate N 0) (List.replicate N 0)
      = some { result := 1, arr := sort (List.replicate N 0),
               dep := sort (List.replicate N 0) } :=
  minPlatform_of_wrap (by rw [List.length_replicate]; exact h1)
    (by rw [List.length_replicate]; exact h2)

/-- On `N` events `[0, 0]`, `2^31 ≤ N < 2^32`, every hypothesis on the input holds,
the call returns `1`, and `N` events are under way at the instant `0`. -/
theorem replicate_not_max_active {N : Nat} (h1 : 2 ^ 31 ≤ N) (h2 : N < 2 ^ 32) :
    (List.replicate N (0 : Int)).length = (List.replicate N (0 : Int)).length ∧
    1 ≤ (List.replicate N (0 : Int)).length ∧
    Valid (List.replicate N 0) (List.replicate N 0) ∧
    ∃ out, minPlatform (List.replicate N 0) (List.replicate N 0) = some out ∧
      out.result = 1 ∧
      out.result < (active (List.replicate N 0) (List.replicate N 0) 0 : Int) := by
  refine ⟨rfl, ?_, valid_replicate N, _, minPlatform_replicate h1 h2, rfl, ?_⟩
  · rw [List.length_replicate]; omega
  · rw [active_replicate]
    show (1 : Int) < (N : Int)
    omega

/-- Two or more events `[0, 0]` cannot share one platform. -/
theorem replicate_not_assignable {N : Nat} (hN : 2 ≤ N) :
    ¬ Assignable (List.replicate N 0) (List.replicate N 0) 1 := by
  rintro ⟨c, hc⟩
  have hlen : (events (List.replicate N 0) (List.replicate N 0)).length = N := by
    rw [events_replicate, List.length_replicate]
  have hall : ∀ e ∈ events (List.replicate N 0) (List.replicate N 0), e = (0, 0) :=
    fun e he => by
      rw [events_replicate] at he
      exact List.eq_of_mem_replicate he
  have hget : ∀ k : Fin (events (List.replicate N 0) (List.replicate N 0)).length,
      (events (List.replicate N 0) (List.replicate N 0)).get k = (0, 0) := fun k =>
    hall _ (List.get_mem _ k.1 k.2)
  have hne : (⟨0, by omega⟩ : Fin (events (List.replicate N 0)
      (List.replicate N 0)).length) ≠ ⟨1, by omega⟩ := by
    intro h
    have := congrArg Fin.val h
    simp at this
  refine hc _ _ hne ⟨0, ?_, ?_⟩ (Subsingleton.elim _ _)
  · rw [hget]; exact ⟨le_rfl, le_rfl⟩
  · rw [hget]; exact ⟨le_rfl, le_rfl⟩

/-- On `N` events `[0, 0]`, `2^31 ≤ N < 2^32`, every hypothesis on the input holds
and the call returns `1`, but the events cannot be assigned to one platform. -/
theorem replicate_not_min_platforms {N : Nat} (h1 : 2 ^ 31 ≤ N) (h2 : N < 2 ^ 32) :
    (List.replicate N (0 : Int)).length = (List.replicate N (0 : Int)).length ∧
    1 ≤ (List.replicate N (0 : Int)).length ∧
    Valid (List.replicate N 0) (List.replicate N 0) ∧
    ∃ out, minPlatform (List.replicate N 0) (List.replicate N 0) = some out ∧
      out.result = 1 ∧ ¬ Assignable (List.replicate N 0) (List.replicate N 0) 1 := by
  refine ⟨rfl, ?_, valid_replicate N, _, minPlatform_replicate h1 h2, rfl,
    replicate_not_assignable (by omega)⟩
  rw [List.length_replicate]; omega

/-- When every arrival is at or before every departure, the sweep on `N` events,
`1 ≤ N < 2^31`, ends with the maximum `N`. -/
theorem sweep_all_simultaneous {arr dep : List Int} (hlen : arr.length = dep.length)
    (hN : 1 ≤ arr.length) (hsz : arr.length < 2 ^ 31)
    (hall : ∀ a ∈ arr, ∀ d ∈ dep, a ≤ d) :
    ∃ s, loop (sort arr) (sort dep) (toInt arr.length) Sweep.init = some s ∧
      s.maxPlatform = arr.length := by
  have hn := toInt_of_lt hsz
  obtain ⟨s, hs, hP, hc⟩ := loop_rule
    (fun s => Basic (toInt arr.length) s ∧ s.j = 0 ∧ s.maxPlatform = s.i)
    (sort arr) (sort dep) (toInt arr.length)
    (fun s hP hc => by
      obtain ⟨s', hb, hB⟩ := basic_body hlen (toInt_le _) hP.1 hc
      refine ⟨s', hb, hB, ?_⟩
      obtain ⟨hi, hj, hb'⟩ := body_eq_sorted hlen (toInt_le _) hc
      have hle : (sort arr)[s.i] ≤ (sort dep)[s.j] :=
        hall _ ((sort_perm arr).mem_iff.1 (List.getElem_mem hi)) _
          ((sort_perm dep).mem_iff.1 (List.getElem_mem hj))
      rw [hb', if_pos hle] at hb
      cases hb
      obtain ⟨-, -, -, h4, -, -, -⟩ := hP.1
      refine ⟨hP.2.1, ?_⟩
      have h5 := hP.2.2
      have h6 := hP.2.1
      simp only [Nat.cast_add, Nat.cast_one]
      rw [h6] at h4
      rw [max_eq_right (by omega)]
      simp at h4
      omega)
    Sweep.init ⟨basic_init _, rfl, rfl⟩
  refine ⟨s, hs, ?_⟩
  obtain ⟨hB, hj, hm⟩ := hP
  have hc' : ¬ ((s.i : Int) < toInt arr.length ∧ (s.j : Int) < toInt arr.length) := hc
  have h2 := hB.2.1
  rw [hm]
  omega

/-- On `N` events `[0, 0]`, `2^31 ≤ N < 2^32`, every arrival is at or before every
departure and the call returns `1`, not `N`. -/
theorem replicate_not_length {N : Nat} (h1 : 2 ^ 31 ≤ N) (h2 : N < 2 ^ 32) :
    (List.replicate N (0 : Int)).length = (List.replicate N (0 : Int)).length ∧
    1 ≤ (List.replicate N (0 : Int)).length ∧
    (∀ a ∈ List.replicate N (0 : Int), ∀ d ∈ List.replicate N (0 : Int), a ≤ d) ∧
    ∃ out, minPlatform (List.replicate N 0) (List.replicate N 0) = some out ∧
      out.result = 1 ∧ out.result ≠ ((List.replicate N (0 : Int)).length : Int) := by
  refine ⟨rfl, ?_, fun a ha d hd => ?_, _, minPlatform_replicate h1 h2, rfl, ?_⟩
  · rw [List.length_replicate]; omega
  · rw [List.eq_of_mem_replicate ha, List.eq_of_mem_replicate hd]
  · rw [List.length_replicate]
    show (1 : Int) ≠ (N : Int)
    omega

/-- From `2^31 - 1` events `[0, 0]` to `2^31` of them the value the call returns
drops from `2^31 - 1` to `1`. -/
theorem replicate_append_lowers {N : Nat} (h : N + 1 = 2 ^ 31) :
    (List.replicate N (0 : Int)).length = (List.replicate N (0 : Int)).length ∧
    Valid (List.replicate N 0) (List.replicate N 0) ∧ (0 : Int) ≤ 0 ∧
    ∃ out out', minPlatform (List.replicate N 0) (List.replicate N 0) = some out ∧
      minPlatform (List.replicate N 0 ++ [0]) (List.replicate N 0 ++ [0]) = some out' ∧
      out.result = ((List.replicate N (0 : Int)).length : Int) ∧ out'.result = 1 ∧
      out'.result < out.result := by
  have hl : (List.replicate N (0 : Int)).length = N := List.length_replicate _ _
  obtain ⟨s, hs, hm⟩ := sweep_all_simultaneous
    (rfl : (List.replicate N (0 : Int)).length = (List.replicate N (0 : Int)).length)
    (by rw [hl]; omega) (by rw [hl]; omega)
    (fun a ha d hd => by rw [List.eq_of_mem_replicate ha, List.eq_of_mem_replicate hd])
  have hl' : (List.replicate N (0 : Int) ++ [0]).length = N + 1 := by
    rw [List.length_append, hl]; rfl
  have hw := @minPlatform_of_wrap (List.replicate N (0 : Int) ++ [0])
    (List.replicate N (0 : Int) ++ [0]) (by rw [hl']; omega) (by rw [hl']; omega)
  refine ⟨rfl, valid_replicate N, le_rfl, _, _, minPlatform_of_loop hs, hw, hm, rfl, ?_⟩
  show (1 : Int) < s.maxPlatform
  rw [hm, hl]
  omega

/-- On `N` events `[0, 0]`, `2^31 ≤ N < 2^32`, the loop is not entered and exits in
its entry state, with `i = 1`. -/
theorem replicate_exit_cursor {N : Nat} (h1 : 2 ^ 31 ≤ N) (h2 : N < 2 ^ 32) :
    (List.replicate N (0 : Int)).length = (List.replicate N (0 : Int)).length ∧
    Valid (List.replicate N 0) (List.replicate N 0) ∧
    ∃ s, loop (sort (List.replicate N 0)) (sort (List.replicate N 0))
        (toInt (List.replicate N (0 : Int)).length) Sweep.init = some s ∧
      s.i = 1 ∧ s.i ≠ (List.replicate N (0 : Int)).length := by
  have hl : (List.replicate N (0 : Int)).length = N := List.length_replicate _ _
  have hn : toInt (List.replicate N (0 : Int)).length < 0 :=
    toInt_neg (by rw [hl]; exact h1) (by rw [hl]; exact h2)
  refine ⟨rfl, valid_replicate N, Sweep.init, loop_skip _ _ (by omega), rfl, ?_⟩
  rw [hl]
  show (1 : Nat) ≠ N
  omega

/-! ## Claims -/

/-- C1, as the claim states it, fails: on `2^31` events `[0, 0]` the size is narrowed
to a negative `int`, the loop is not entered and the call returns `1`, while `2^31`
events are under way at the instant `0`. -/
theorem minPlatform_wrap_not_max_active :
    (List.replicate (2 ^ 31) (0 : Int)).length
      = (List.replicate (2 ^ 31) (0 : Int)).length ∧
    1 ≤ (List.replicate (2 ^ 31) (0 : Int)).length ∧
    Valid (List.replicate (2 ^ 31) 0) (List.replicate (2 ^ 31) 0) ∧
    ∃ out, minPlatform (List.replicate (2 ^ 31) 0) (List.replicate (2 ^ 31) 0) = some out ∧
      out.result = 1 ∧
      out.result
        < (active (List.replicate (2 ^ 31) 0) (List.replicate (2 ^ 31) 0) 0 : Int) :=
  replicate_not_max_active (Nat.le_refl _) (by norm_num)

/-- C1, amended. On `N` events, `1 ≤ N < 2^31`, with `arrivals[k] ≤ departures[k]` the
call returns the maximum over all instants `t` of the number of events with
`arrivals[k] ≤ t ≤ departures[k]`: some instant has that many events under way and
no instant has more. -/
theorem minPlatform_eq_max_active (arr dep : List Int) (hlen : arr.length = dep.length)
    (hN : 1 ≤ arr.length) (hsz : arr.length < 2 ^ 31) (hv : Valid arr dep) :
    ∃ out, minPlatform arr dep = some out ∧
      (∃ t, (active arr dep t : Int) = out.result) ∧
      ∀ t, (active arr dep t : Int) ≤ out.result := by
  obtain ⟨s, hs, -, -, hex, hub⟩ := sweep_max_active hlen hN hsz hv
  exact ⟨_, minPlatform_of_loop hs, hex, hub⟩

/-- Scenario 1 of the specification: the call returns `3`, the greatest number of
events under way at an instant. -/
theorem minPlatform_eq_max_active_witness :
    minPlatform [900, 940, 950, 1100, 1500, 1800] [910, 1200, 1120, 1130, 1900, 2000]
      = some { result := 3, arr := [900, 940, 950, 1100, 1500, 1800],
               dep := [910, 1120, 1130, 1200, 1900, 2000] } ∧
    ∃ out, minPlatform [900, 940, 950, 1100, 1500, 1800]
        [910, 1200, 1120, 1130, 1900, 2000] = some out ∧
      (∃ t, (active [900, 940, 950, 1100, 1500, 1800]
        [910, 1200, 1120, 1130, 1900, 2000] t : Int) = out.result) ∧
      ∀ t, (active [900, 940, 950, 1100, 1500, 1800]
        [910, 1200, 1120, 1130, 1900, 2000] t : Int) ≤ out.result :=
  ⟨by
    simp [minPlatform, sort, Sweep.init, toInt]
    repeat (rw [loop_eq]; simp [cond, body]),
   minPlatform_eq_max_active [900, 940, 950, 1100, 1500, 1800]
    [910, 1200, 1120, 1130, 1900, 2000] (by decide) (by decide) (by decide) (by decide)⟩

/-- C2, as the claim states it, fails: on `2^31` events `[0, 0]` the call returns `1`,
and the events, which all overlap, cannot be assigned to one platform. -/
theorem minPlatform_wrap_not_min_platforms :
    (List.replicate (2 ^ 31) (0 : Int)).length
      = (List.replicate (2 ^ 31) (0 : Int)).length ∧
    1 ≤ (List.replicate (2 ^ 31) (0 : Int)).length ∧
    Valid (List.replicate (2 ^ 31) 0) (List.replicate (2 ^ 31) 0) ∧
    ∃ out, minPlatform (List.replicate (2 ^ 31) 0) (List.replicate (2 ^ 31) 0) = some out ∧
      out.result = 1 ∧
      ¬ Assignable (List.replicate (2 ^ 31) 0) (List.replicate (2 ^ 31) 0) 1 :=
  replicate_not_min_platforms (Nat.le_refl _) (by norm_num)

/-- C2, amended. On `N` events, `1 ≤ N < 2^31`, with `arrivals[k] ≤ departures[k]` the
value `r` the call returns is the minimum number of platforms: the events can be
assigned to `r` platforms with no two distinct overlapping events on one platform,
and they cannot be so assigned to fewer than `r` platforms. -/
theorem minPlatform_min_platforms (arr dep : List Int) (hlen : arr.length = dep.length)
    (hN : 1 ≤ arr.length) (hsz : arr.length < 2 ^ 31) (hv : Valid arr dep) :
    ∃ out, minPlatform arr dep = some out ∧
      ∃ r : Nat, out.result = (r : Int) ∧ Assignable arr dep r ∧
        ∀ q, q < r → ¬ Assignable arr dep q := by
  obtain ⟨s, hs, -, h1, ⟨t0, ht0⟩, hub⟩ := sweep_max_active hlen hN hsz hv
  refine ⟨_, minPlatform_of_loop hs, active arr dep t0, ht0.symm, ?_, ?_⟩
  · have hr : 0 < active arr dep t0 := by omega
    have hmax : ∀ t, (underWay (events arr dep) t).card ≤ active arr dep t0 := fun t => by
      have := hub t
      rw [card_underWay]
      omega
    obtain ⟨c, hc⟩ := exists_assignment hv hr hmax Finset.univ
    exact ⟨c, fun k m hkm hov => hc k (Finset.mem_univ k) m (Finset.mem_univ m) hkm hov⟩
  · rintro q hq ⟨c, hc⟩
    have := card_underWay_le c hc t0
    rw [card_underWay] at this
    omega

/-- Scenario 1 of the specification needs exactly as many platforms as the call returns. -/
theorem minPlatform_min_platforms_witness :
    ∃ out, minPlatform [900, 940, 950, 1100, 1500, 1800]
        [910, 1200, 1120, 1130, 1900, 2000] = some out ∧
      ∃ r : Nat, out.result = (r : Int) ∧
        Assignable [900, 940, 950, 1100, 1500, 1800] [910, 1200, 1120, 1130, 1900, 2000] r ∧
        ∀ q, q < r →
          ¬ Assignable [900, 940, 950, 1100, 1500, 1800] [910, 1200, 1120, 1130, 1900, 2000] q :=
  minPlatform_min_platforms [900, 940, 950, 1100, 1500, 1800]
    [910, 1200, 1120, 1130, 1900, 2000] (by decide) (by decide) (by decide) (by decide)

/-- C3. Tie-break on two events `(a1, d1)`, `(a2, d2)` with `a1 ≤ d1`, `a2 ≤ d2`
and `a1 ≤ a2`: the call returns `2` when `a2 ≤ d1` and `1` when `a2 > d1`; an arrival
at the instant of the other departure (`a2 = d1`) counts as overlapping. -/
theorem minPlatform_two_events (a1 d1 a2 d2 : Int) (_h1 : a1 ≤ d1) (h2 : a2 ≤ d2)
    (h12 : a1 ≤ a2) :
    ∃ out, minPlatform [a1, a2] [d1, d2] = some out ∧
      out.result = (if a2 ≤ d1 then 2 else 1) ∧ (a2 = d1 → out.result = 2) := by
  have hA : sort [a1, a2] = [a1, a2] := sort_eq_self (by simp [List.Sorted, h12])
  have hD : sort [d1, d2] = if d1 ≤ d2 then [d1, d2] else [d2, d1] := by
    simp [sort]
  have hn : toInt ([a1, a2] : List Int).length = 2 := by
    rw [toInt_of_lt (by simp)]; rfl
  have hl : loop [a1, a2] (sort [d1, d2]) 2 Sweep.init
      = some { i := 2, j := if a2 ≤ d1 then 0 else 1, platform := if a2 ≤ d1 then 2 else 1,
               maxPlatform := if a2 ≤ d1 then 2 else 1 } := by
    rw [hD]
    by_cases c1 : d1 ≤ d2 <;> by_cases c2 : a2 ≤ d1
    · simp only [if_pos c1, if_pos c2]
      repeat (rw [loop_eq]; simp [cond, body, Sweep.init, c2])
    · simp only [if_pos c1, if_neg c2]
      repeat (rw [loop_eq]; simp [cond, body, Sweep.init, c2, h2])
    · simp only [if_neg c1, if_pos c2]
      repeat (rw [loop_eq]; simp [cond, body, Sweep.init, c2, h2])
    · simp only [if_neg c1, if_neg c2]
      have c3 : a2 ≤ d1 := by omega
      exact absurd c3 c2
  have hl' : loop (sort [a1, a2]) (sort [d1, d2]) (toInt ([a1, a2] : List Int).length)
      Sweep.init
      = some { i := 2, j := if a2 ≤ d1 then 0 else 1, platform := if a2 ≤ d1 then 2 else 1,
               maxPlatform := if a2 ≤ d1 then 2 else 1 } := by
    rw [hA, hn]
    exact hl
  refine ⟨_, minPlatform_of_loop hl', rfl, fun h => ?_⟩
  simp [h]

/-- Scenario 5 of the specification: arrivals `[100, 200]`, departures `[200, 300]` give `2`. -/
theorem minPlatform_two_events_witness :
    ∃ out, minPlatform [100, 200] [200, 300] = some out ∧
      out.result = (if (200 : Int) ≤ 200 then 2 else 1) ∧
      ((200 : Int) = 200 → out.result = 2) :=
  minPlatform_two_events 100 200 200 300 (by decide) (by decide) (by decide)

/-- C4. Permutation invariance: rearranging the arrivals and, independently, the
departures changes neither the returned value nor the vectors the call leaves. -/
theorem minPlatform_perm (arr dep arr' dep' : List Int)
    (ha : arr'.Perm arr) (hd : dep'.Perm dep) :
    minPlatform arr' dep' = minPlatform arr dep := by
  simp only [minPlatform, sort_eq_of_perm ha, sort_eq_of_perm hd, ha.length_eq]

/-- Two rearrangements of three events give one outcome. -/
theorem minPlatform_perm_witness :
    minPlatform [940, 900, 950] [1120, 1200, 910] = minPlatform [900, 940, 950] [910, 1200, 1120] :=
  minPlatform_perm [900, 940, 950] [910, 1200, 1120] [940, 900, 950] [1120, 1200, 910]
    (by decide) (by decide)

/-- C6. Lower bound: on vectors of one length `N ≥ 1` the call returns a value
that is at least `1`. -/
theorem minPlatform_ge_one (arr dep : List Int) (hlen : arr.length = dep.length)
    (_hN : 1 ≤ arr.length) :
    ∃ out, minPlatform arr dep = some out ∧ 1 ≤ out.result := by
  obtain ⟨s, -, hP, -, hout⟩ := minPlatform_basic hlen
  exact ⟨_, hout, hP.2.2.2.2.2.1⟩

/-- Scenario 4 of the specification returns at least `1`. -/
theorem minPlatform_ge_one_witness :
    ∃ out, minPlatform [100, 300, 500] [200, 400, 600] = some out ∧ 1 ≤ out.result :=
  minPlatform_ge_one [100, 300, 500] [200, 400, 600] (by decide) (by decide)

/-- C7. Empty input: with no event the loop condition is false on entry, so the
loop exits in its entry state without an iteration, and the call returns `1`. -/
theorem minPlatform_nil :
    ¬ cond (toInt ([] : List Int).length) Sweep.init ∧
    loop (sort []) (sort []) (toInt ([] : List Int).length) Sweep.init
      = some Sweep.init ∧
    minPlatform [] [] = some { result := 1, arr := [], dep := [] } := by
  have hc : ¬ cond (toInt ([] : List Int).length) Sweep.init := by decide
  have hl : loop (sort []) (sort []) (toInt ([] : List Int).length) Sweep.init
      = some Sweep.init := by
    rw [loop_eq, if_neg hc]
  refine ⟨hc, hl, ?_⟩
  rw [minPlatform_of_loop hl]
  simp [Sweep.init, sort]

/-- C9. Idempotence under pre-sorting: the call on the sorted vectors gives what
the call on the vectors gives, and a second call on the vectors as the first call
left them gives the same again. -/
theorem minPlatform_sorted_input (arr dep : List Int) (hlen : arr.length = dep.length) :
    minPlatform (sort arr) (sort dep) = minPlatform arr dep ∧
    ∃ out, minPlatform arr dep = some out ∧ minPlatform out.arr out.dep = some out := by
  have h : minPlatform (sort arr) (sort dep) = minPlatform arr dep := by
    simp only [minPlatform, sort_sort, sort_length]
  obtain ⟨s, -, -, -, hout⟩ := minPlatform_basic hlen
  exact ⟨h, _, hout, by rw [h, hout]⟩

/-- Three events given out of order: sorting them first, or calling twice, changes nothing. -/
theorem minPlatform_sorted_input_witness :
    minPlatform (sort [940, 900, 950]) (sort [1120, 1200, 910])
      = minPlatform [940, 900, 950] [1120, 1200, 910] ∧
    ∃ out, minPlatform [940, 900, 950] [1120, 1200, 910] = some out ∧
      minPlatform out.arr out.dep = some out :=
  minPlatform_sorted_input [940, 900, 950] [1120, 1200, 910] (by decide)

/-- C10, as the claim states it, fails: on `2^31` events `[0, 0]`, all simultaneous,
the size is narrowed to a negative `int`, the loop is not entered and the call
returns `1`, not `N`. -/
theorem minPlatform_wrap_not_length :
    (List.replicate (2 ^ 31) (0 : Int)).length
      = (List.replicate (2 ^ 31) (0 : Int)).length ∧
    1 ≤ (List.replicate (2 ^ 31) (0 : Int)).length ∧
    (∀ a ∈ List.replicate (2 ^ 31) (0 : Int),
      ∀ d ∈ List.replicate (2 ^ 31) (0 : Int), a ≤ d) ∧
    ∃ out, minPlatform (List.replicate (2 ^ 31) 0) (List.replicate (2 ^ 31) 0) = some out ∧
      out.result = 1 ∧
      out.result ≠ ((List.replicate (2 ^ 31) (0 : Int)).length : Int) :=
  replicate_not_length (Nat.le_refl _) (by norm_num)

/-- C10, amended. All events simultaneous: when every arrival is at or before every
departure, the call on `N` events, `1 ≤ N < 2^31`, returns `N`. -/
theorem minPlatform_all_simultaneous (arr dep : List Int) (hlen : arr.length = dep.length)
    (hN : 1 ≤ arr.length) (hsz : arr.length < 2 ^ 31)
    (hall : ∀ a ∈ arr, ∀ d ∈ dep, a ≤ d) :
    ∃ out, minPlatform arr dep = some out ∧ out.result = arr.length := by
  obtain ⟨s, hs, hm⟩ := sweep_all_simultaneous hlen hN hsz hall
  exact ⟨_, minPlatform_of_loop hs, hm⟩

/-- Scenario 3 of the specification: three simultaneous events give `3`. -/
theorem minPlatform_all_simultaneous_witness :
    ∃ out, minPlatform [100, 100, 100] [200, 200, 200] = some out ∧
      out.result = ([100, 100, 100] : List Int).length :=
  minPlatform_all_simultaneous [100, 100, 100] [200, 200, 200] (by decide) (by decide)
    (by decide) (by decide)

/-- C5. Upper bound, at the input where the code breaks it: with no event
(`N = 0`) the call returns `1`, which exceeds `N`. -/
theorem minPlatform_nil_exceeds_length :
    ∃ out, minPlatform [] [] = some out ∧ out.result = 1 ∧
      ¬ out.result ≤ (([] : List Int).length : Int) := by
  refine ⟨{ result := 1, arr := [], dep := [] }, ?_, rfl, by decide⟩
  rw [minPlatform_of_loop (loop_skip _ _ (by decide))]
  simp [Sweep.init, sort]

/-- Upper bound where the code keeps it: on vectors of one length `N ≥ 1` the call
returns a value that is at most `N`. -/
theorem minPlatform_le_length (arr dep : List Int) (hlen : arr.length = dep.length)
    (hN : 1 ≤ arr.length) :
    ∃ out, minPlatform arr dep = some out ∧ out.result ≤ (arr.length : Int) := by
  obtain ⟨s, -, hP, -, hout⟩ := minPlatform_basic hlen
  refine ⟨_, hout, ?_⟩
  obtain ⟨-, h2, -, -, -, -, h7⟩ := hP
  have hle := toInt_le arr.length
  simp only
  omega

/-- C8, as the claim states it, fails: the call sorts the caller's vectors, so
vectors that are not ascending come back in another order. -/
theorem minPlatform_mutates_arguments :
    ∃ out, minPlatform [940, 900] [1200, 910] = some out ∧
      out.arr ≠ [940, 900] ∧ out.dep ≠ [1200, 910] := by
  refine ⟨{ result := 1, arr := [900, 940], dep := [910, 1200] }, ?_, by decide, by decide⟩
  simp [minPlatform, sort, Sweep.init, toInt]
  repeat (rw [loop_eq]; simp [cond, body])

/-- C8, amended. The call sorts the caller's vectors in place: after the call each
vector holds the elements it held before, as many times each, and it holds them in
the same order exactly when it was already ascending before the call. -/
theorem minPlatform_arguments_after (arr dep : List Int) (hlen : arr.length = dep.length) :
    ∃ out, minPlatform arr dep = some out ∧
      out.arr.Perm arr ∧ out.dep.Perm dep ∧
      (out.arr = arr ↔ arr.Sorted (fun a b => a ≤ b)) ∧
      (out.dep = dep ↔ dep.Sorted (fun a b => a ≤ b)) := by
  obtain ⟨s, -, -, -, hout⟩ := minPlatform_basic hlen
  refine ⟨_, hout, sort_perm arr, sort_perm dep, ?_, ?_⟩
  · exact ⟨fun h => h ▸ sort_sorted arr, sort_eq_self⟩
  · exact ⟨fun h => h ▸ sort_sorted dep, sort_eq_self⟩

/-- Two events given out of order come back permuted, and neither vector was ascending. -/
theorem minPlatform_arguments_after_witness :
    ∃ out, minPlatform [940, 900] [1200, 910] = some out ∧
      out.arr.Perm [940, 900] ∧ out.dep.Perm [1200, 910] ∧
      (out.arr = [940, 900] ↔ List.Sorted (fun a b => a ≤ b) ([940, 900] : List Int)) ∧
      (out.dep = [1200, 910] ↔ List.Sorted (fun a b => a ≤ b) ([1200, 910] : List Int)) :=
  minPlatform_arguments_after [940, 900] [1200, 910] (by decide)

/-- C11. No overlap: on `N ≥ 1` events with `arrivals[k] ≤ departures[k]` that are
pairwise disjoint the call returns `1`. -/
theorem minPlatform_no_overlap (arr dep : List Int) (hlen : arr.length = dep.length)
    (hN : 1 ≤ arr.length) (hv : Valid arr dep) (hd : NoOverlap arr dep) :
    ∃ out, minPlatform arr dep = some out ∧ out.result = 1 := by
  obtain ⟨s, hs, h1, t0, ht0⟩ := sweep_le_active hlen hN hv
  refine ⟨_, minPlatform_of_loop hs, ?_⟩
  have hcard : (underWay (events arr dep) t0).card ≤ 1 := by
    refine Finset.card_le_one.2 (fun k hk m hm => ?_)
    by_contra hne
    have hk' : occupies ((events arr dep).get k) t0 := by simpa [underWay] using hk
    have hm' : occupies ((events arr dep).get m) t0 := by simpa [underWay] using hm
    obtain ⟨hk1, hk2⟩ := hk'
    obtain ⟨hm1, hm2⟩ := hm'
    rcases hd k m hne with h | h <;> omega
  rw [card_underWay] at hcard
  simp only
  omega

/-- Scenario 4 of the specification (three disjoint events) and scenario 2 (a single
event) both give `1`. -/
theorem minPlatform_no_overlap_witness :
    (∃ out, minPlatform [100, 300, 500] [200, 400, 600] = some out ∧ out.result = 1) ∧
    (∃ out, minPlatform [100] [200] = some out ∧ out.result = 1) :=
  ⟨minPlatform_no_overlap [100, 300, 500] [200, 400, 600] (by decide) (by decide)
      (by decide) (by decide),
   minPlatform_no_overlap [100] [200] (by decide) (by decide) (by decide) (by decide)⟩

/-- C12. Index safety: on vectors of one length `N`, in every state of the loop from
which an iteration is entered both cursors are below `N`, so both reads of the
iteration find an element, the iteration yields a state, and the call returns. -/
theorem sweep_reads_in_bounds (arr dep : List Int) (hlen : dep.length = arr.length) :
    (∀ k s, Steps (sort arr) (sort dep) (toInt arr.length) k s →
      cond (toInt arr.length) s →
      s.i < arr.length ∧ s.j < dep.length ∧
      (∃ a d, (sort arr)[s.i]? = some a ∧ (sort dep)[s.j]? = some d) ∧
      body (sort arr) (sort dep) s ≠ none) ∧
    minPlatform arr dep ≠ none := by
  constructor
  · intro k s _ hc
    obtain ⟨hi, hj, hb⟩ := body_eq_sorted hlen.symm (toInt_le _) hc
    refine ⟨sort_length arr ▸ hi, sort_length dep ▸ hj, ⟨_, _, List.getElem?_eq_getElem hi,
      List.getElem?_eq_getElem hj⟩, ?_⟩
    rw [hb]
    split <;> simp
  · obtain ⟨s, -, -, -, hout⟩ := minPlatform_basic hlen.symm
    simp [hout]

/-- Scenario 1 of the specification reads within bounds throughout. -/
theorem sweep_reads_in_bounds_witness :
    (∀ k s, Steps (sort [900, 940, 950, 1100, 1500, 1800])
        (sort [910, 1200, 1120, 1130, 1900, 2000])
        (toInt ([900, 940, 950, 1100, 1500, 1800] : List Int).length) k s →
      cond (toInt ([900, 940, 950, 1100, 1500, 1800] : List Int).length) s →
      s.i < ([900, 940, 950, 1100, 1500, 1800] : List Int).length ∧
      s.j < ([910, 1200, 1120, 1130, 1900, 2000] : List Int).length ∧
      (∃ a d, (sort [900, 940, 950, 1100, 1500, 1800])[s.i]? = some a ∧
        (sort [910, 1200, 1120, 1130, 1900, 2000])[s.j]? = some d) ∧
      body (sort [900, 940, 950, 1100, 1500, 1800])
        (sort [910, 1200, 1120, 1130, 1900, 2000]) s ≠ none) ∧
    minPlatform [900, 940, 950, 1100, 1500, 1800]
      [910, 1200, 1120, 1130, 1900, 2000] ≠ none :=
  sweep_reads_in_bounds [900, 940, 950, 1100, 1500, 1800]
    [910, 1200, 1120, 1130, 1900, 2000] (by decide)

/-- C13. Length mismatch is unchecked: the bound of both cursors is the number of
arrivals as an `int`, so with no departure and that bound at least `2` the loop is
entered and its first iteration reads `dep[0]` past the end of the departures. -/
theorem sweep_reads_past_end (arr : List Int) (h2 : 2 ≤ toInt arr.length) :
    ([] : List Int).length < arr.length ∧
    Steps (sort arr) (sort []) (toInt arr.length) 0 Sweep.init ∧
    cond (toInt arr.length) Sweep.init ∧
    (sort [] : List Int).length ≤ Sweep.init.j ∧
    (sort [])[Sweep.init.j]? = none ∧
    body (sort arr) (sort []) Sweep.init = none ∧
    minPlatform arr [] = none := by
  have hle := toInt_le arr.length
  have hc : cond (toInt arr.length) Sweep.init :=
    ⟨by simp only [Sweep.init]; omega, by simp only [Sweep.init]; omega⟩
  have hb : body (sort arr) (sort []) Sweep.init = none := by
    simp [body, sort, Sweep.init]
  refine ⟨by simp only [List.length_nil]; omega, Steps.init, hc, by simp [sort],
    by simp [sort], hb, ?_⟩
  simp [minPlatform, loop_eq (sort arr) (sort []) (toInt arr.length) Sweep.init, hc, hb]

/-- The input of the claim: arrivals `[1, 2]`, departures `[]`. -/
theorem sweep_reads_past_end_witness :
    ([] : List Int).length < ([1, 2] : List Int).length ∧
    Steps (sort [1, 2]) (sort []) (toInt ([1, 2] : List Int).length) 0 Sweep.init ∧
    cond (toInt ([1, 2] : List Int).length) Sweep.init ∧
    (sort [] : List Int).length ≤ Sweep.init.j ∧
    (sort [])[Sweep.init.j]? = none ∧
    body (sort [1, 2]) (sort []) Sweep.init = none ∧
    minPlatform [1, 2] [] = none :=
  sweep_reads_past_end [1, 2] (by decide)

/-- C14. Termination: on vectors of one length `N` every iteration advances exactly
one of the cursors by one, so `(N - i) + (N - j)` decreases; the loop reaches its
exit; and for `N ≥ 1` no state of the loop is more than `2N - 2` iterations in. -/
theorem sweep_terminates (arr dep : List Int) (hlen : arr.length = dep.length) :
    (∀ s s', cond (toInt arr.length) s → body (sort arr) (sort dep) s = some s' →
      ((s'.i = s.i + 1 ∧ s'.j = s.j) ∨ (s'.i = s.i ∧ s'.j = s.j + 1)) ∧
      (arr.length - s'.i) + (arr.length - s'.j)
        < (arr.length - s.i) + (arr.length - s.j)) ∧
    (∃ k s, Steps (sort arr) (sort dep) (toInt arr.length) k s ∧
      ¬ cond (toInt arr.length) s ∧
      loop (sort arr) (sort dep) (toInt arr.length) Sweep.init = some s) ∧
    (1 ≤ arr.length → ∀ k s, Steps (sort arr) (sort dep) (toInt arr.length) k s →
      k ≤ 2 * arr.length - 2) := by
  have hle := toInt_le arr.length
  refine ⟨fun s s' hc hb => ?_, steps_exit hlen, fun hN k s hk => ?_⟩
  · have hc2 : (s.i : Int) < toInt arr.length ∧ (s.j : Int) < toInt arr.length := hc
    have := body_cursors hb
    exact ⟨this, by rcases this with ⟨h1, h2⟩ | ⟨h1, h2⟩ <;> omega⟩
  · have h1 := steps_count hk
    have h2 := steps_bound hk
    omega

/-- Scenario 1 of the specification: the loop exits, after at most `10` iterations. -/
theorem sweep_terminates_witness :
    (∀ s s', cond (toInt ([900, 940, 950, 1100, 1500, 1800] : List Int).length) s →
      body (sort [900, 940, 950, 1100, 1500, 1800])
        (sort [910, 1200, 1120, 1130, 1900, 2000]) s = some s' →
      ((s'.i = s.i + 1 ∧ s'.j = s.j) ∨ (s'.i = s.i ∧ s'.j = s.j + 1)) ∧
      (([900, 940, 950, 1100, 1500, 1800] : List Int).length - s'.i)
          + (([900, 940, 950, 1100, 1500, 1800] : List Int).length - s'.j)
        < (([900, 940, 950, 1100, 1500, 1800] : List Int).length - s.i)
          + (([900, 940, 950, 1100, 1500, 1800] : List Int).length - s.j)) ∧
    (∃ k s, Steps (sort [900, 940, 950, 1100, 1500, 1800])
        (sort [910, 1200, 1120, 1130, 1900, 2000])
        (toInt ([900, 940, 950, 1100, 1500, 1800] : List Int).length) k s ∧
      ¬ cond (toInt ([900, 940, 950, 1100, 1500, 1800] : List Int).length) s ∧
      loop (sort [900, 940, 950, 1100, 1500, 1800])
        (sort [910, 1200, 1120, 1130, 1900, 2000])
        (toInt ([900, 940, 950, 1100, 1500, 1800] : List Int).length) Sweep.init
        = some s) ∧
    (1 ≤ ([900, 940, 950, 1100, 1500, 1800] : List Int).length →
      ∀ k s, Steps (sort [900, 940, 950, 1100, 1500, 1800])
        (sort [910, 1200, 1120, 1130, 1900, 2000])
        (toInt ([900, 940, 950, 1100, 1500, 1800] : List Int).length) k s →
      k ≤ 2 * ([900, 940, 950, 1100, 1500, 1800] : List Int).length - 2) :=
  sweep_terminates [900, 940, 950, 1100, 1500, 1800]
    [910, 1200, 1120, 1130, 1900, 2000] (by decide)

/-- C15, as the claim states it, fails at two inputs that meet its hypotheses.
With no event (`N = 0`) the loop is not entered and exits in its entry state, where
`i = 1`, not `i = N`.  With `2^31` events `[0, 0]` the size is narrowed to a negative
`int`, and again the loop exits in its entry state, with `i = 1`. -/
theorem sweep_exit_cursor_not_length :
    (([] : List Int).length = ([] : List Int).length ∧ Valid [] [] ∧
      ∃ s, loop (sort []) (sort []) (toInt ([] : List Int).length) Sweep.init = some s ∧
        s.i = 1 ∧ s.i ≠ ([] : List Int).length) ∧
    ((List.replicate (2 ^ 31) (0 : Int)).length
        = (List.replicate (2 ^ 31) (0 : Int)).length ∧
      Valid (List.replicate (2 ^ 31) 0) (List.replicate (2 ^ 31) 0) ∧
      ∃ s, loop (sort (List.replicate (2 ^ 31) 0)) (sort (List.replicate (2 ^ 31) 0))
          (toInt (List.replicate (2 ^ 31) (0 : Int)).length) Sweep.init = some s ∧
        s.i = 1 ∧ s.i ≠ (List.replicate (2 ^ 31) (0 : Int)).length) :=
  ⟨⟨rfl, by decide, Sweep.init, loop_skip _ _ (by decide), rfl, by decide⟩,
   replicate_exit_cursor (Nat.le_refl _) (by norm_num)⟩

/-- C15, amended. Running-count invariant: on events with
`arrivals[k] ≤ departures[k]`, in every state of the loop the running count is
`i - j`, it is not negative, and `j ≤ i`; and on `N` events, `1 ≤ N < 2^31`, the loop
exits with `i = N`, every arrival passed. -/
theorem sweep_running_count (arr dep : List Int) (hlen : arr.length = dep.length)
    (hv : Valid arr dep) :
    (∀ k s, Steps (sort arr) (sort dep) (toInt arr.length) k s →
      s.platform = (s.i : Int) - s.j ∧ 0 ≤ s.platform ∧ s.j ≤ s.i) ∧
    (1 ≤ arr.length → arr.length < 2 ^ 31 →
      ∃ s, loop (sort arr) (sort dep) (toInt arr.length) Sweep.init = some s ∧
        ¬ cond (toInt arr.length) s ∧ s.i = arr.length) := by
  refine ⟨fun k s hk => steps_running_count hlen hv hk, fun hN hsz => ?_⟩
  obtain ⟨s, hs, hi, -, -, -⟩ := sweep_max_active hlen hN hsz hv
  obtain ⟨k, s', -, hc, hs'⟩ := steps_exit hlen
  rw [hs] at hs'
  cases hs'
  exact ⟨s, hs, hc, hi⟩

/-- Scenario 1 of the specification: the invariant holds in every state of the loop,
and the loop exits with `i = 6`. -/
theorem sweep_running_count_witness :
    (∀ k s, Steps (sort [900, 940, 950, 1100, 1500, 1800])
        (sort [910, 1200, 1120, 1130, 1900, 2000])
        (toInt ([900, 940, 950, 1100, 1500, 1800] : List Int).length) k s →
      s.platform = (s.i : Int) - s.j ∧ 0 ≤ s.platform ∧ s.j ≤ s.i) ∧
    ∃ s, loop (sort [900, 940, 950, 1100, 1500, 1800])
        (sort [910, 1200, 1120, 1130, 1900, 2000])
        (toInt ([900, 940, 950, 1100, 1500, 1800] : List Int).length) Sweep.init
        = some s ∧
      ¬ cond (toInt ([900, 940, 950, 1100, 1500, 1800] : List Int).length) s ∧
      s.i = ([900, 940, 950, 1100, 1500, 1800] : List Int).length :=
  have h := sweep_running_count [900, 940, 950, 1100, 1500, 1800]
    [910, 1200, 1120, 1130, 1900, 2000] (by decide) (by decide)
  ⟨h.1, h.2 (by decide) (by decide)⟩

/-- C16, as the claim states it, fails: from `2^31 - 1` events `[0, 0]` to `2^31` of
them the size stops fitting an `int`, and the value the call returns drops from
`2^31 - 1` to `1`. -/
theorem minPlatform_wrap_append_lowers :
    (List.replicate (2 ^ 31 - 1) (0 : Int)).length
      = (List.replicate (2 ^ 31 - 1) (0 : Int)).length ∧
    Valid (List.replicate (2 ^ 31 - 1) 0) (List.replicate (2 ^ 31 - 1) 0) ∧
    (0 : Int) ≤ 0 ∧
    ∃ out out', minPlatform (List.replicate (2 ^ 31 - 1) 0)
        (List.replicate (2 ^ 31 - 1) 0) = some out ∧
      minPlatform (List.replicate (2 ^ 31 - 1) 0 ++ [0])
        (List.replicate (2 ^ 31 - 1) 0 ++ [0]) = some out' ∧
      out.result = ((List.replicate (2 ^ 31 - 1) (0 : Int)).length : Int) ∧
      out'.result = 1 ∧ out'.result < out.result :=
  replicate_append_lowers (by norm_num)

/-- C16, amended. One more event: on `N` events with `arrivals[k] ≤ departures[k]`,
`N + 1 < 2^31`, the call with an extra event `(a, d)`, `a ≤ d`, appended returns at
least what the call without it returns and at most one more. -/
theorem minPlatform_append_event (arr dep : List Int) (hlen : arr.length = dep.length)
    (hsz : arr.length + 1 < 2 ^ 31) (hv : Valid arr dep) (a d : Int) (had : a ≤ d) :
    ∃ out out', minPlatform arr dep = some out ∧
      minPlatform (arr ++ [a]) (dep ++ [d]) = some out' ∧
      out.result ≤ out'.result ∧ out'.result ≤ out.result + 1 := by
  have hlen' : (arr ++ [a]).length = (dep ++ [d]).length := by simp [hlen]
  have hN' : 1 ≤ (arr ++ [a]).length := by simp
  have hsz' : (arr ++ [a]).length < 2 ^ 31 := by
    rw [List.length_append]; exact hsz
  obtain ⟨s', hs', -, h1', ⟨t1, ht1⟩, hub'⟩ :=
    sweep_max_active hlen' hN' hsz' (valid_append hlen hv had)
  rcases Nat.eq_zero_or_pos arr.length with hz | hpos
  · have ha : arr = [] := List.length_eq_zero.1 hz
    have hd : dep = [] := List.length_eq_zero.1 (hlen ▸ hz)
    subst ha hd
    have hs : loop (sort []) (sort []) (toInt ([] : List Int).length) Sweep.init
        = some Sweep.init := loop_skip _ _ (by decide)
    refine ⟨_, _, minPlatform_of_loop hs, minPlatform_of_loop hs', ?_, ?_⟩
    · exact h1'
    · have hle : active ([] ++ [a]) ([] ++ [d]) t1 ≤ 1 := by
        simp only [active, events]
        exact le_trans (List.countP_le_length _) (by simp)
      simp only [Sweep.init]
      omega
  · obtain ⟨s, hs, -, -, ⟨t0, ht0⟩, hub⟩ :=
      sweep_max_active hlen hpos (by omega) hv
    refine ⟨_, _, minPlatform_of_loop hs, minPlatform_of_loop hs', ?_, ?_⟩
    · have h2 := hub' t0
      have h3 := active_append hlen a d t0
      simp only
      split at h3 <;> omega
    · have h2 := hub t1
      have h3 := active_append hlen a d t1
      simp only
      split at h3 <;> omega

/-- Scenario 4 of the specification with one more event, `(150, 350)`, which
overlaps two of the three. -/
theorem minPlatform_append_event_witness :
    ∃ out out', minPlatform [100, 300, 500] [200, 400, 600] = some out ∧
      minPlatform ([100, 300, 500] ++ [150]) ([200, 400, 600] ++ [350]) = some out' ∧
      out.result ≤ out'.result ∧ out'.result ≤ out.result + 1 :=
  minPlatform_append_event [100, 300, 500] [200, 400, 600] (by decide) (by decide)
    (by decide) 150 350 (by decide)

/-- C17. In-place sorting: whenever the call returns, the caller's arrivals are an
ascending permutation of what they were, and so are the departures, each sorted on
its own, with length and elements unchanged; on vectors of one length the call does
return, leaving `sort arr` and `sort dep`. -/
theorem minPlatform_sorts_arguments (arr dep : List Int) :
    (∀ out, minPlatform arr dep = some out →
      out.arr.Sorted (fun a b => a ≤ b) ∧ out.arr.Perm arr ∧
      out.arr.length = arr.length ∧
      out.dep.Sorted (fun a b => a ≤ b) ∧ out.dep.Perm dep ∧
      out.dep.length = dep.length) ∧
    (arr.length = dep.length →
      ∃ out, minPlatform arr dep = some out ∧ out.arr = sort arr ∧ out.dep = sort dep) := by
  constructor
  · intro out hout
    unfold minPlatform at hout
    simp only at hout
    split at hout
    · cases hout
      exact ⟨sort_sorted arr, sort_perm arr, sort_length arr, sort_sorted dep,
        sort_perm dep, sort_length dep⟩
    · cases hout
  · intro hlen
    obtain ⟨s, -, -, -, hout⟩ := minPlatform_basic hlen
    exact ⟨_, hout, rfl, rfl⟩

/-- Two events given out of order: the call returns and leaves both vectors ascending. -/
theorem minPlatform_sorts_arguments_witness :
    ∃ out, minPlatform [940, 900] [1200, 910] = some out ∧
      out.arr = [900, 940] ∧ out.dep = [910, 1200] ∧
      out.arr.Sorted (fun a b => a ≤ b) ∧ out.arr.Perm [940, 900] ∧
      out.arr.length = ([940, 900] : List Int).length ∧
      out.dep.Sorted (fun a b => a ≤ b) ∧ out.dep.Perm [1200, 910] ∧
      out.dep.length = ([1200, 910] : List Int).length := by
  have h := minPlatform_sorts_arguments [940, 900] [1200, 910]
  obtain ⟨out, hout, ha, hd⟩ := h.2 (by decide)
  exact ⟨out, hout, by rw [ha]; decide, by rw [hd]; decide, h.1 out hout⟩


end MinPlatform
